import Mathlib

/-
Verification of the contract execution reconciler
(clustering/table_contract/executor.cc).

The reconciler owns a table from execution keys to execution states,
diffs the replicated contract mapping against it on every pass
(contract_executor_t::update), tears down stale executions in a
blocking phase (contract_executor_t::update_blocking), and routes
acknowledgements from running executions into a shared ack map
(contract_executor_t::send_ack).

The embedding below models the executor state as association lists
with unique keys (mirroring std::map), and records the externally
visible actions of a pass (worker creation, update_contract calls,
blocking shutdowns, ack-map deletions, table erasures, pump
notifications) as an event trace, so that temporal ordering claims can
be stated about it.
-/

namespace ContractExecutor

/-- Uuids (server ids, branch ids) are opaque identities. -/
abbrev Uuid : Type := Nat

/-- nil_uuid() from the uuid utilities: a distinguished null identity. -/
def nil_uuid : Uuid := 0

abbrev server_id_t : Type := Uuid
abbrev branch_id_t : Type := Uuid
abbrev contract_id_t : Type := Nat

/-- Acknowledgement payloads (contract_ack_t) are opaque to the reconciler;
it only stores and deletes them. -/
abbrev contract_ack_t : Type := Nat

/-- Modelled from the spec: region_t is external to the translated source.
The spec describes a Region as a contiguous partition of the keyspace
supporting overlap and equality tests; we model it as a half-open key
interval. -/
structure region_t where
  lo : Nat
  hi : Nat
deriving DecidableEq, Repr

/-- Modelled from the spec: two key ranges overlap when their
intersection is nonempty. -/
def region_overlaps (r1 r2 : region_t) : Bool :=
  decide (r1.lo < r2.hi) && decide (r2.lo < r1.hi)

/-- contract_t: an optional primary server (only its .server field is
consulted by the executor), a replica set, and a branch id. -/
structure contract_t where
  replicas : List server_id_t
  primary : Option server_id_t
  branch : branch_id_t
deriving DecidableEq, Repr

/-- The three execution roles (execution_key_t::role_t). -/
inductive role_t where
  | primary
  | secondary
  | erase
deriving DecidableEq, Repr

/-- execution_key_t: derived, stable identity of the work this node
should be doing for a region. -/
structure execution_key_t where
  region : region_t
  role : role_t
  primary : Uuid
  branch : Uuid
deriving DecidableEq, Repr

/-- execution_data_t: the per-key record in the live table. The scoped
resources (worker handle, store subview, perfmon membership) are
abstracted into exec_id, the unique counter value assigned at creation
(the source uses ++perfmon_counter for the same purpose). -/
structure execution_data_t where
  contract_id : contract_id_t
  exec_id : Nat
deriving DecidableEq, Repr

/-- One entry of the replicated contract mapping
(std::map<contract_id_t, std::pair<region_t, contract_t>>). -/
abbrev contract_entry_t : Type := contract_id_t × region_t × contract_t

section AList

variable {α β : Type} [DecidableEq α]

/-- Lookup in an association list (std::map find/at). -/
def alist_find (k : α) : List (α × β) → Option β
  | [] => none
  | p :: t => if p.1 = k then some p.2 else alist_find k t

/-- Overwrite the value at a key (mutation through a map iterator).
Keys are unique in the maps being modelled, so rewriting every
occurrence coincides with rewriting the unique one. -/
def alist_set (k : α) (v : β) : List (α × β) → List (α × β)
  | [] => []
  | p :: t => if p.1 = k then (k, v) :: alist_set k v t else p :: alist_set k v t

/-- Erase a key (std::map erase). Keys are unique in the maps being
modelled, so dropping every occurrence coincides with dropping the
unique one. -/
def alist_erase (k : α) : List (α × β) → List (α × β)
  | [] => []
  | p :: t => if p.1 = k then alist_erase k t else p :: alist_erase k t

end AList

/-- watchable_map_t::set_key_no_equals: store the value at the key,
overwriting any previous value without an equality check (insert when
the key is absent). -/
def set_key_no_equals {α β : Type} [DecidableEq α] (k : α) (v : β)
    (m : List (α × β)) : List (α × β) :=
  if (alist_find k m).isSome then alist_set k v m else m ++ [(k, v)]

/-- The mutable state of contract_executor_t that the claims concern:
the live execution table, the ack map (restricted to this node, whose
entries are keyed by (server_id, contract_id)), and the perfmon
counter used to generate unique per-execution names. -/
structure executor_state_t where
  executions : List (execution_key_t × execution_data_t)
  ack_map : List ((server_id_t × contract_id_t) × contract_ack_t)
  perfmon_counter : Nat
deriving DecidableEq, Repr

/-- The externally visible actions of the reconciler, recorded in
source order as a trace. -/
inductive event_t where
  /-- A role-specific worker was constructed with an acker closing
  over (key, contract id). -/
  | create (key : execution_key_t) (cid : contract_id_t)
  /-- update_contract was invoked on a live execution with an acker
  closing over (key, contract id). -/
  | update_contract (key : execution_key_t) (cid : contract_id_t)
  /-- The blocking reset of the execution handle completed. -/
  | shutdown (key : execution_key_t)
  /-- An ack-map entry was deleted. -/
  | ack_delete (entry : server_id_t × contract_id_t)
  /-- The key was erased from the live execution table. -/
  | erase_entry (key : execution_key_t)
  /-- The update pump was notified to schedule another pass. -/
  | notify
deriving DecidableEq, Repr

/-- get_contract_key (executor.cc lines 40-63): derive the execution
key for one contract from this node's point of view. -/
def get_contract_key (server_id : server_id_t) (pair : region_t × contract_t) :
    execution_key_t :=
  if pair.2.primary = some server_id then
    { region := pair.1, role := role_t.primary,
      primary := nil_uuid, branch := nil_uuid }
  else if server_id ∈ pair.2.replicas then
    { region := pair.1, role := role_t.secondary,
      primary := pair.2.primary.getD nil_uuid, branch := pair.2.branch }
  else
    { region := pair.1, role := role_t.erase,
      primary := nil_uuid, branch := nil_uuid }

/-- The body of the loop over new_state.contracts in
contract_executor_t::update (executor.cc lines 98-164): one contract
entry is matched against the live table. Returns the updated state and
the events of this step. -/
def update_step (server_id : server_id_t) (st : executor_state_t)
    (new_pair : contract_entry_t) : executor_state_t × List event_t :=
  let key := get_contract_key server_id new_pair.2
  match alist_find key st.executions with
  | some data =>
    if data.contract_id ≠ new_pair.1 then
      ({ st with
          executions :=
            alist_set key { data with contract_id := new_pair.1 } st.executions,
          ack_map := alist_erase (server_id, data.contract_id) st.ack_map },
       [event_t.update_contract key new_pair.1])
    else
      (st, [])
  | none =>
    if st.executions.all (fun old_pair => !region_overlaps old_pair.1.region new_pair.2.1) then
      ({ st with
          executions := st.executions ++
            [(key, { contract_id := new_pair.1, exec_id := st.perfmon_counter + 1 })],
          perfmon_counter := st.perfmon_counter + 1 },
       [event_t.create key new_pair.1])
    else
      (st, [])

/-- The full loop over the contract mapping in
contract_executor_t::update (executor.cc lines 98-164). -/
def update_loop (server_id : server_id_t) :
    executor_state_t → List contract_entry_t → executor_state_t × List event_t
  | st, [] => (st, [])
  | st, e :: rest =>
    let r := update_step server_id st e
    let r2 := update_loop server_id r.1 rest
    (r2.1, r.2 ++ r2.2)

/-- The dont_delete set of a pass: the derived keys of every contract
in the input mapping (executor.cc lines 97-100). -/
def dont_delete (server_id : server_id_t) (contracts : List contract_entry_t) :
    List execution_key_t :=
  contracts.map (fun e => get_contract_key server_id e.2)

/-- The result of the non-blocking diff pass: the new state, the keys
handed back for blocking deletion, and the event trace. -/
structure update_result_t where
  state : executor_state_t
  dels : List execution_key_t
  events : List event_t
deriving DecidableEq, Repr

/-- contract_executor_t::update (executor.cc lines 93-172): run the
loop over the contract mapping, then report every live key that no
contract wants into to_delete_out. -/
def update (server_id : server_id_t) (st : executor_state_t)
    (contracts : List contract_entry_t) : update_result_t :=
  let r := update_loop server_id st contracts
  { state := r.1,
    dels := (r.1.executions.filter
      (fun p => !decide (p.1 ∈ dont_delete server_id contracts))).map Prod.fst,
    events := r.2 }

/-- The body of the deletion loop in
contract_executor_t::update_blocking (executor.cc lines 73-86): reset
the execution handle to completion (blocking), then delete the ack-map
entry for its last recorded contract id, then erase the key from the
live table. The source guarantees the key is present; an absent key is
modelled as a skip. -/
def teardown_step (server_id : server_id_t) (st : executor_state_t)
    (key : execution_key_t) : executor_state_t × List event_t :=
  match alist_find key st.executions with
  | some data =>
    ({ st with
        ack_map := alist_erase (server_id, data.contract_id) st.ack_map,
        executions := alist_erase key st.executions },
     [event_t.shutdown key,
      event_t.ack_delete (server_id, data.contract_id),
      event_t.erase_entry key])
  | none => (st, [])

/-- The deletion loop of contract_executor_t::update_blocking. -/
def teardown_loop (server_id : server_id_t) :
    executor_state_t → List execution_key_t → executor_state_t × List event_t
  | st, [] => (st, [])
  | st, k :: rest =>
    let r := teardown_step server_id st k
    let r2 := teardown_loop server_id r.1 rest
    (r2.1, r.2 ++ r2.2)

/-- contract_executor_t::update_blocking (executor.cc lines 65-91):
run the diff pass under the read scope, then, if it reported any keys
to delete, run the blocking teardown for each and notify the update
pump to schedule another pass. -/
def update_blocking (server_id : server_id_t) (st : executor_state_t)
    (contracts : List contract_entry_t) : executor_state_t × List event_t :=
  let r := update server_id st contracts
  if r.dels = [] then
    (r.state, r.events)
  else
    let t := teardown_loop server_id r.state r.dels
    (t.1, r.events ++ t.2 ++ [event_t.notify])

/-- One full reconciliation pass, state component only. -/
def pass (server_id : server_id_t) (contracts : List contract_entry_t)
    (st : executor_state_t) : executor_state_t :=
  (update_blocking server_id st contracts).1

/-- contract_executor_t::send_ack (executor.cc lines 174-181): look up
the live execution state for the key (an unchecked std::map::at,
modelled as an Option failure when the key is absent); if its recorded
contract id matches, publish the ack into the ack map unconditionally
(set_key_no_equals), otherwise do nothing. -/
def send_ack (server_id : server_id_t) (st : executor_state_t)
    (key : execution_key_t) (cid : contract_id_t) (ack : contract_ack_t) :
    Option executor_state_t :=
  match alist_find key st.executions with
  | none => none
  | some data =>
    if data.contract_id = cid then
      some { st with ack_map := set_key_no_equals (server_id, cid) ack st.ack_map }
    else
      some st

/-- The keys of the live execution table. -/
def live_keys (st : executor_state_t) : List execution_key_t :=
  st.executions.map Prod.fst

/-- The no-overlap invariant on a set of live keys: every two distinct
live keys have non-overlapping regions. -/
def pairwise_non_overlapping (ks : List execution_key_t) : Prop :=
  ∀ k1 ∈ ks, ∀ k2 ∈ ks, k1 ≠ k2 → region_overlaps k1.region k2.region = false

instance (ks : List execution_key_t) : Decidable (pairwise_non_overlapping ks) := by
  unfold pairwise_non_overlapping
  infer_instance

/-- Modelled from the spec, section 4.1: the specified derivation of an
ExecutionKey from (selfId, contract), written following the wording of
the spec, to be compared with the translation of get_contract_key.
The spec reads: if contract.primary is set and equals selfId, role is
Primary with primary/branch cleared; else if selfId is in
contract.replicas, role is Secondary with primary the primary server
of the contract (or nil when absent) and branch the contract branch;
else role is Erase with primary/branch cleared. -/
def derive_key_spec (self_id : server_id_t) (pair : region_t × contract_t) :
    execution_key_t :=
  match pair.2.primary with
  | some p =>
    if p = self_id then
      { region := pair.1, role := role_t.primary,
        primary := nil_uuid, branch := nil_uuid }
    else if self_id ∈ pair.2.replicas then
      { region := pair.1, role := role_t.secondary,
        primary := p, branch := pair.2.branch }
    else
      { region := pair.1, role := role_t.erase,
        primary := nil_uuid, branch := nil_uuid }
  | none =>
    if self_id ∈ pair.2.replicas then
      { region := pair.1, role := role_t.secondary,
        primary := nil_uuid, branch := pair.2.branch }
    else
      { region := pair.1, role := role_t.erase,
        primary := nil_uuid, branch := nil_uuid }

section AListLemmas

variable {α β : Type} [DecidableEq α]

theorem alist_find_append_of_none {k : α} {l1 l2 : List (α × β)}
    (h : alist_find k l1 = none) :
    alist_find k (l1 ++ l2) = alist_find k l2 := by
  induction l1 with
  | nil => rfl
  | cons p t ih =>
    simp only [alist_find] at h ⊢
    split at h
    · exact absurd h (by simp)
    · simp [*, ih h]

theorem alist_find_append_of_some {k : α} {v : β} {l1 l2 : List (α × β)}
    (h : alist_find k l1 = some v) :
    alist_find k (l1 ++ l2) = some v := by
  induction l1 with
  | nil => simp [alist_find] at h
  | cons p t ih =>
    simp only [alist_find] at h ⊢
    split at h
    · simp [*]
    · simp [*, ih h]

theorem alist_find_set_ne {k k' : α} {v : β} {l : List (α × β)} (h : k' ≠ k) :
    alist_find k (alist_set k' v l) = alist_find k l := by
  induction l with
  | nil => rfl
  | cons p t ih =>
    simp only [alist_set]
    split
    · rename_i hp
      simp only [alist_find, if_neg h, ih, hp, if_neg h]
    · simp only [alist_find, ih]

theorem alist_find_set_self {k : α} {v : β} {l : List (α × β)} {w : β}
    (h : alist_find k l = some w) :
    alist_find k (alist_set k v l) = some v := by
  induction l with
  | nil => simp [alist_find] at h
  | cons p t ih =>
    simp only [alist_find, alist_set] at h ⊢
    split at h
    · rename_i hp
      simp [hp, alist_find]
    · rename_i hp
      simp only [hp, if_false, alist_find, if_neg hp]
      exact ih h

theorem alist_find_erase_self {k : α} {l : List (α × β)} :
    alist_find k (alist_erase k l) = none := by
  induction l with
  | nil => rfl
  | cons p t ih =>
    simp only [alist_erase]
    split
    · exact ih
    · rename_i hp
      simp only [alist_find, if_neg hp, ih]

theorem alist_find_erase_ne {k k' : α} {l : List (α × β)} (h : k' ≠ k) :
    alist_find k (alist_erase k' l) = alist_find k l := by
  induction l with
  | nil => rfl
  | cons p t ih =>
    simp only [alist_erase]
    split
    · rename_i hp
      simp only [alist_find, hp, if_neg h, ih]
    · simp only [alist_find, ih]

theorem alist_set_keys {k : α} {v : β} {l : List (α × β)} :
    (alist_set k v l).map Prod.fst = l.map Prod.fst := by
  induction l with
  | nil => rfl
  | cons p t ih =>
    simp only [alist_set]
    split
    · rename_i hp
      simp [hp, ih]
    · simp [ih]

theorem alist_erase_subset {k : α} {l : List (α × β)} {p : α × β}
    (h : p ∈ alist_erase k l) : p ∈ l := by
  induction l with
  | nil => simp [alist_erase] at h
  | cons q t ih =>
    simp only [alist_erase] at h
    split at h
    · exact List.mem_cons_of_mem q (ih h)
    · rcases List.mem_cons.mp h with h1 | h2
      · exact h1 ▸ List.mem_cons_self q t
      · exact List.mem_cons_of_mem q (ih h2)

theorem alist_find_isSome_of_mem_keys {k : α} {l : List (α × β)}
    (h : k ∈ l.map Prod.fst) : (alist_find k l).isSome := by
  induction l with
  | nil => simp at h
  | cons p t ih =>
    simp only [alist_find]
    split
    · simp
    · rename_i hp
      refine ih ?_
      rcases List.mem_map.mp h with ⟨q, hq, hqk⟩
      rcases List.mem_cons.mp hq with h1 | h2
      · exact absurd (h1 ▸ hqk) hp
      · exact List.mem_map.mpr ⟨q, h2, hqk⟩

theorem alist_find_mem {k : α} {v : β} {l : List (α × β)}
    (h : alist_find k l = some v) : (k, v) ∈ l := by
  induction l with
  | nil => simp [alist_find] at h
  | cons p t ih =>
    simp only [alist_find] at h
    split at h
    · rename_i hp
      cases h
      exact hp ▸ List.mem_cons_self p t
    · exact List.mem_cons_of_mem p (ih h)

theorem mem_keys_of_alist_find {k : α} {v : β} {l : List (α × β)}
    (h : alist_find k l = some v) : k ∈ l.map Prod.fst := by
  exact List.mem_map.mpr ⟨(k, v), alist_find_mem h, rfl⟩

theorem alist_find_eq_none_of_not_mem_keys {k : α} {l : List (α × β)}
    (h : k ∉ l.map Prod.fst) : alist_find k l = none := by
  cases hf : alist_find k l with
  | none => rfl
  | some v => exact absurd (mem_keys_of_alist_find hf) h

end AListLemmas

section StepLemmas

theorem region_overlaps_symm (r1 r2 : region_t) :
    region_overlaps r1 r2 = region_overlaps r2 r1 := by
  simp [region_overlaps, Bool.and_comm]

theorem get_contract_key_region (server_id : server_id_t)
    (pair : region_t × contract_t) :
    (get_contract_key server_id pair).region = pair.1 := by
  unfold get_contract_key
  split
  · rfl
  · split <;> rfl

theorem update_loop_cons_fst (server_id : server_id_t) (st : executor_state_t)
    (e : contract_entry_t) (rest : List contract_entry_t) :
    (update_loop server_id st (e :: rest)).1 =
      (update_loop server_id (update_step server_id st e).1 rest).1 := rfl

theorem update_loop_cons_snd (server_id : server_id_t) (st : executor_state_t)
    (e : contract_entry_t) (rest : List contract_entry_t) :
    (update_loop server_id st (e :: rest)).2 =
      (update_step server_id st e).2 ++
        (update_loop server_id (update_step server_id st e).1 rest).2 := rfl

theorem teardown_loop_cons_fst (server_id : server_id_t) (st : executor_state_t)
    (k : execution_key_t) (rest : List execution_key_t) :
    (teardown_loop server_id st (k :: rest)).1 =
      (teardown_loop server_id (teardown_step server_id st k).1 rest).1 := rfl

theorem teardown_loop_cons_snd (server_id : server_id_t) (st : executor_state_t)
    (k : execution_key_t) (rest : List execution_key_t) :
    (teardown_loop server_id st (k :: rest)).2 =
      (teardown_step server_id st k).2 ++
        (teardown_loop server_id (teardown_step server_id st k).1 rest).2 := rfl

theorem update_state_eq (server_id : server_id_t) (st : executor_state_t)
    (contracts : List contract_entry_t) :
    (update server_id st contracts).state = (update_loop server_id st contracts).1 := rfl

/-- The state reached by a full pass is the teardown of the diff result
at the reported deletion set (when nothing is to delete, the teardown
loop is vacuous). -/
theorem pass_eq (server_id : server_id_t) (contracts : List contract_entry_t)
    (st : executor_state_t) :
    pass server_id contracts st =
      (teardown_loop server_id (update server_id st contracts).state
        (update server_id st contracts).dels).1 := by
  by_cases h : (update server_id st contracts).dels = []
  · simp [pass, update_blocking, h, teardown_loop]
  · simp [pass, update_blocking, h]

/-- Case analysis of update_step: a live key with a stale contract id. -/
theorem update_step_found_ne (server_id : server_id_t) (st : executor_state_t)
    (cid : contract_id_t) (pr : region_t × contract_t) (d : execution_data_t)
    (hf : alist_find (get_contract_key server_id pr) st.executions = some d)
    (hne : d.contract_id ≠ cid) :
    update_step server_id st (cid, pr) =
      ({ st with
          executions := alist_set (get_contract_key server_id pr)
            { d with contract_id := cid } st.executions,
          ack_map := alist_erase (server_id, d.contract_id) st.ack_map },
       [event_t.update_contract (get_contract_key server_id pr) cid]) := by
  simp [update_step, hf, hne]

/-- Case analysis of update_step: a live key with a matching contract
id is left untouched. -/
theorem update_step_found_eq (server_id : server_id_t) (st : executor_state_t)
    (cid : contract_id_t) (pr : region_t × contract_t) (d : execution_data_t)
    (hf : alist_find (get_contract_key server_id pr) st.executions = some d)
    (heq : d.contract_id = cid) :
    update_step server_id st (cid, pr) = (st, []) := by
  simp [update_step, hf, heq]

/-- Case analysis of update_step: an absent key whose region overlaps
no live key is created. -/
theorem update_step_absent_ok (server_id : server_id_t) (st : executor_state_t)
    (cid : contract_id_t) (pr : region_t × contract_t)
    (hf : alist_find (get_contract_key server_id pr) st.executions = none)
    (hok : st.executions.all (fun old_pair => !region_overlaps old_pair.1.region pr.1) = true) :
    update_step server_id st (cid, pr) =
      ({ st with
          executions := st.executions ++
            [(get_contract_key server_id pr,
              { contract_id := cid, exec_id := st.perfmon_counter + 1 })],
          perfmon_counter := st.perfmon_counter + 1 },
       [event_t.create (get_contract_key server_id pr) cid]) := by
  simp [update_step, hf, hok]

/-- Case analysis of update_step: an absent key whose region overlaps
some live key is skipped (creation deferred). -/
theorem update_step_absent_blocked (server_id : server_id_t) (st : executor_state_t)
    (cid : contract_id_t) (pr : region_t × contract_t)
    (hf : alist_find (get_contract_key server_id pr) st.executions = none)
    (hok : ¬ (st.executions.all (fun old_pair => !region_overlaps old_pair.1.region pr.1) = true)) :
    update_step server_id st (cid, pr) = (st, []) := by
  simp only [update_step, hf]
  simp [hok]

end StepLemmas

section NoOverlap

theorem pno_of_subset {ks ks' : List execution_key_t}
    (hsub : ∀ k ∈ ks', k ∈ ks) (h : pairwise_non_overlapping ks) :
    pairwise_non_overlapping ks' :=
  fun k1 h1 k2 h2 hne => h k1 (hsub k1 h1) k2 (hsub k2 h2) hne

theorem pno_append_singleton {ks : List execution_key_t} {key : execution_key_t}
    (h : pairwise_non_overlapping ks)
    (hg : ∀ k ∈ ks, region_overlaps k.region key.region = false) :
    pairwise_non_overlapping (ks ++ [key]) := by
  intro k1 h1 k2 h2 hne
  rcases List.mem_append.mp h1 with h1 | h1 <;> rcases List.mem_append.mp h2 with h2 | h2
  · exact h k1 h1 k2 h2 hne
  · have hk2 : k2 = key := by simpa using h2
    exact hk2 ▸ hg k1 h1
  · have hk1 : k1 = key := by simpa using h1
    rw [hk1, region_overlaps_symm]
    exact hg k2 h2
  · simp only [List.mem_singleton] at h1 h2
    exact absurd (h1.trans h2.symm) hne

/-- The creation guard of a pass, read as a proposition: every live
key's region is disjoint from the candidate region. -/
theorem guard_overlaps_false {st : executor_state_t} {r : region_t}
    (hok : st.executions.all (fun old_pair => !region_overlaps old_pair.1.region r) = true) :
    ∀ k ∈ live_keys st, region_overlaps k.region r = false := by
  intro k hk
  rcases List.mem_map.mp hk with ⟨p, hp, rfl⟩
  have := List.all_eq_true.mp hok p hp
  simpa using this

theorem pno_update_step (server_id : server_id_t) (st : executor_state_t)
    (e : contract_entry_t) (h : pairwise_non_overlapping (live_keys st)) :
    pairwise_non_overlapping (live_keys (update_step server_id st e).1) := by
  obtain ⟨cid, pr⟩ := e
  cases hf : alist_find (get_contract_key server_id pr) st.executions with
  | some d =>
    by_cases hne : d.contract_id = cid
    · rw [update_step_found_eq server_id st cid pr d hf hne]
      exact h
    · rw [update_step_found_ne server_id st cid pr d hf hne]
      simpa [live_keys, alist_set_keys] using h
  | none =>
    by_cases hok : st.executions.all
        (fun old_pair => !region_overlaps old_pair.1.region pr.1) = true
    · rw [update_step_absent_ok server_id st cid pr hf hok]
      have hkeys :
          live_keys { st with
            executions := st.executions ++
              [(get_contract_key server_id pr,
                { contract_id := cid, exec_id := st.perfmon_counter + 1 })],
            perfmon_counter := st.perfmon_counter + 1 } =
          live_keys st ++ [get_contract_key server_id pr] := by
        simp [live_keys]
      rw [hkeys]
      refine pno_append_singleton h ?_
      intro k hk
      rw [get_contract_key_region]
      exact guard_overlaps_false hok k hk
    · rw [update_step_absent_blocked server_id st cid pr hf hok]
      exact h

theorem pno_update_loop (server_id : server_id_t) (contracts : List contract_entry_t)
    (st : executor_state_t) (h : pairwise_non_overlapping (live_keys st)) :
    pairwise_non_overlapping (live_keys (update_loop server_id st contracts).1) := by
  induction contracts generalizing st with
  | nil => exact h
  | cons e rest ih =>
    rw [update_loop_cons_fst]
    exact ih _ (pno_update_step server_id st e h)

theorem live_keys_teardown_step_subset (server_id : server_id_t)
    (st : executor_state_t) (key : execution_key_t) :
    ∀ k ∈ live_keys (teardown_step server_id st key).1, k ∈ live_keys st := by
  intro k hk
  unfold teardown_step at hk
  cases hf : alist_find key st.executions with
  | some d =>
    rw [hf] at hk
    simp only [live_keys] at hk ⊢
    rcases List.mem_map.mp hk with ⟨p, hp, rfl⟩
    exact List.mem_map.mpr ⟨p, alist_erase_subset hp, rfl⟩
  | none =>
    rw [hf] at hk
    exact hk

theorem pno_teardown_loop (server_id : server_id_t) (dels : List execution_key_t)
    (st : executor_state_t) (h : pairwise_non_overlapping (live_keys st)) :
    pairwise_non_overlapping (live_keys (teardown_loop server_id st dels).1) := by
  induction dels generalizing st with
  | nil => exact h
  | cons k rest ih =>
    rw [teardown_loop_cons_fst]
    exact ih _ (pno_of_subset (live_keys_teardown_step_subset server_id st k) h)

end NoOverlap

/-- C1. No-overlap invariant: starting from a live table whose keys
are pairwise non-overlapping, every intermediate state of the diff
loop, every intermediate state of the teardown loop, and the state
after the full pass keep the live keys pairwise non-overlapping;
moreover the pass enforces this by refusing creation for any contract
whose region overlaps a currently-live key's region. -/
theorem no_overlap_invariant (server_id : server_id_t)
    (contracts : List contract_entry_t) (st : executor_state_t)
    (h : pairwise_non_overlapping (live_keys st)) :
    (∀ n, pairwise_non_overlapping
      (live_keys (update_loop server_id st (contracts.take n)).1))
    ∧ (∀ n, pairwise_non_overlapping
      (live_keys (teardown_loop server_id (update server_id st contracts).state
        ((update server_id st contracts).dels.take n)).1))
    ∧ pairwise_non_overlapping (live_keys (pass server_id contracts st))
    ∧ (∀ (st' : executor_state_t) (cid : contract_id_t) (pr : region_t × contract_t),
        alist_find (get_contract_key server_id pr) st'.executions = none →
        (∃ k ∈ live_keys st', region_overlaps k.region pr.1 = true) →
        update_step server_id st' (cid, pr) = (st', [])) := by
  refine ⟨?_, ?_, ?_, ?_⟩
  · intro n
    exact pno_update_loop server_id (contracts.take n) st h
  · intro n
    refine pno_teardown_loop server_id _ _ ?_
    rw [update_state_eq]
    exact pno_update_loop server_id contracts st h
  · rw [pass_eq]
    refine pno_teardown_loop server_id _ _ ?_
    rw [update_state_eq]
    exact pno_update_loop server_id contracts st h
  · intro st' cid pr hf ⟨k, hk, hover⟩
    refine update_step_absent_blocked server_id st' cid pr hf ?_
    intro hall
    have := guard_overlaps_false hall k hk
    rw [this] at hover
    exact Bool.false_ne_true hover

/-- Witness for C1 at a concrete input: a table with one live key for
region lower 0, upper 20 satisfies the hypothesis, and the pass over
two contracts (one overlapping the other) keeps the live keys pairwise
non-overlapping. -/
theorem no_overlap_invariant_witness :
    pairwise_non_overlapping (live_keys
      (executor_state_t.mk
        [(⟨⟨0, 20⟩, role_t.primary, 0, 0⟩, ⟨99, 7⟩)] [((1, 99), 5)] 7))
    ∧ pairwise_non_overlapping (live_keys
      (pass 1 [(1, ⟨0, 5⟩, ⟨[1], some 1, 0⟩), (2, ⟨4, 12⟩, ⟨[1], some 1, 0⟩)]
        (executor_state_t.mk
          [(⟨⟨0, 20⟩, role_t.primary, 0, 0⟩, ⟨99, 7⟩)] [((1, 99), 5)] 7))) :=
  ⟨by decide,
   (no_overlap_invariant 1
      [(1, ⟨0, 5⟩, ⟨[1], some 1, 0⟩), (2, ⟨4, 12⟩, ⟨[1], some 1, 0⟩)]
      (executor_state_t.mk
        [(⟨⟨0, 20⟩, role_t.primary, 0, 0⟩, ⟨99, 7⟩)] [((1, 99), 5)] 7)
      (by decide)).2.2.1⟩

/-- C4. Key derivation: get_contract_key is a pure total function (a
Lean def, hence deterministic with no failure mode) that agrees with
the role derivation worded by the spec, and its result always carries
the region of the contract. -/
theorem get_contract_key_correct (self_id : server_id_t)
    (pair : region_t × contract_t) :
    get_contract_key self_id pair = derive_key_spec self_id pair
    ∧ (get_contract_key self_id pair).region = pair.1 := by
  constructor
  · unfold get_contract_key derive_key_spec
    cases hp : pair.2.primary with
    | none => simp [hp]
    | some p =>
      by_cases hps : p = self_id
      · simp [hp, hps]
      · have hne : ¬(some p = some self_id) := by simpa using hps
        simp [hp, hps, hne]
  · exact get_contract_key_region self_id pair

/-- C5. Contract update on an unchanged key: when the derived key of a
contract entry is live with a different recorded contract id, the step
swaps the contract id in place (same worker, same exec_id), emits
exactly one update_contract invocation whose acker closes over the key
and the new contract id, removes the ack-map entry of the old contract
id, creates no execution and leaves the live key set and the perfmon
counter unchanged; when the recorded contract id already matches, the
step changes nothing and emits nothing. -/
theorem contract_update_on_live_key (server_id : server_id_t)
    (st : executor_state_t) (cid : contract_id_t) (pr : region_t × contract_t)
    (d : execution_data_t)
    (hf : alist_find (get_contract_key server_id pr) st.executions = some d) :
    (d.contract_id ≠ cid →
      alist_find (get_contract_key server_id pr)
          (update_step server_id st (cid, pr)).1.executions =
        some { d with contract_id := cid }
      ∧ (update_step server_id st (cid, pr)).2 =
        [event_t.update_contract (get_contract_key server_id pr) cid]
      ∧ alist_find (server_id, d.contract_id)
          (update_step server_id st (cid, pr)).1.ack_map = none
      ∧ live_keys (update_step server_id st (cid, pr)).1 = live_keys st
      ∧ (update_step server_id st (cid, pr)).1.perfmon_counter = st.perfmon_counter)
    ∧ (d.contract_id = cid → update_step server_id st (cid, pr) = (st, [])) := by
  constructor
  · intro hne
    rw [update_step_found_ne server_id st cid pr d hf hne]
    refine ⟨alist_find_set_self hf, rfl, alist_find_erase_self, ?_, rfl⟩
    simp [live_keys, alist_set_keys]
  · intro heq
    exact update_step_found_eq server_id st cid pr d hf heq

/-- Witness for C5 at a concrete input: a table holding the key for
region lower 0, upper 5 under contract id 99 receives contract id 100
for the same derived key. -/
theorem contract_update_on_live_key_witness :
    alist_find (get_contract_key 1 (⟨0, 5⟩, ⟨[1], some 1, 0⟩))
        (update_step 1
          (executor_state_t.mk
            [(⟨⟨0, 5⟩, role_t.primary, 0, 0⟩, ⟨99, 7⟩)] [((1, 99), 5)] 7)
          (100, ⟨0, 5⟩, ⟨[1], some 1, 0⟩)).1.executions = some ⟨100, 7⟩
    ∧ (update_step 1
        (executor_state_t.mk
          [(⟨⟨0, 5⟩, role_t.primary, 0, 0⟩, ⟨99, 7⟩)] [((1, 99), 5)] 7)
        (100, ⟨0, 5⟩, ⟨[1], some 1, 0⟩)).2 =
      [event_t.update_contract (get_contract_key 1 (⟨0, 5⟩, ⟨[1], some 1, 0⟩)) 100]
    ∧ alist_find ((1 : server_id_t), (99 : contract_id_t))
        (update_step 1
          (executor_state_t.mk
            [(⟨⟨0, 5⟩, role_t.primary, 0, 0⟩, ⟨99, 7⟩)] [((1, 99), 5)] 7)
          (100, ⟨0, 5⟩, ⟨[1], some 1, 0⟩)).1.ack_map = none :=
  ((contract_update_on_live_key 1
      (executor_state_t.mk
        [(⟨⟨0, 5⟩, role_t.primary, 0, 0⟩, ⟨99, 7⟩)] [((1, 99), 5)] 7)
      100 (⟨0, 5⟩, ⟨[1], some 1, 0⟩) ⟨99, 7⟩ (by decide)).1 (by decide)).imp
    id (fun h => ⟨h.1, h.2.1⟩)

section AckLemmas

theorem set_key_no_equals_find {α β : Type} [DecidableEq α] (k : α) (v : β)
    (m : List (α × β)) : alist_find k (set_key_no_equals k v m) = some v := by
  unfold set_key_no_equals
  split
  · rename_i h
    obtain ⟨w, hw⟩ := Option.isSome_iff_exists.mp h
    exact alist_find_set_self hw
  · rename_i h
    have hn : alist_find k m = none := Option.not_isSome_iff_eq_none.mp h
    rw [alist_find_append_of_none hn]
    simp [alist_find]

theorem teardown_step_find_other (server_id : server_id_t)
    (st : executor_state_t) (k0 k : execution_key_t) (h : k0 ≠ k) :
    alist_find k (teardown_step server_id st k0).1.executions =
      alist_find k st.executions := by
  unfold teardown_step
  cases hf : alist_find k0 st.executions with
  | some d => exact alist_find_erase_ne h
  | none => rfl

theorem teardown_loop_find_other (server_id : server_id_t) :
    ∀ (dels : List execution_key_t) (st : executor_state_t)
      (k : execution_key_t), k ∉ dels →
      alist_find k (teardown_loop server_id st dels).1.executions =
        alist_find k st.executions := by
  intro dels
  induction dels with
  | nil => intro st k _; rfl
  | cons k0 rest ih =>
    intro st k hk
    rw [teardown_loop_cons_fst]
    have h0 : k0 ≠ k := fun h => hk (h ▸ List.mem_cons_self k0 rest)
    rw [ih _ k (fun h => hk (List.mem_cons_of_mem k0 h))]
    exact teardown_step_find_other server_id st k0 k h0

end AckLemmas

/-- C3. Ack routing and staleness: with the key live in the table, an
ack for a contract id that differs from the recorded one is a complete
no-op, while a matching ack is published into the ack map at
(server_id, cid), overwriting unconditionally; and after a pass swaps
the recorded contract id of the key from C1 to C2, routing an ack for
C1 is a no-op and leaves no ack-map entry for (server_id, C1). -/
theorem route_ack_semantics (server_id : server_id_t) (st : executor_state_t)
    (key : execution_key_t) (cid : contract_id_t) (a : contract_ack_t)
    (d : execution_data_t)
    (hf : alist_find key st.executions = some d) :
    (d.contract_id ≠ cid → send_ack server_id st key cid a = some st)
    ∧ (d.contract_id = cid →
        send_ack server_id st key cid a =
          some { st with ack_map := set_key_no_equals (server_id, cid) a st.ack_map }
        ∧ alist_find (server_id, cid)
            (set_key_no_equals (server_id, cid) a st.ack_map) = some a)
    ∧ (∀ (pr : region_t × contract_t) (cid2 : contract_id_t),
        get_contract_key server_id pr = key → cid2 ≠ d.contract_id →
        send_ack server_id (update_step server_id st (cid2, pr)).1 key
            d.contract_id a =
          some (update_step server_id st (cid2, pr)).1
        ∧ alist_find (server_id, d.contract_id)
            (update_step server_id st (cid2, pr)).1.ack_map = none) := by
  refine ⟨?_, ?_, ?_⟩
  · intro hne
    simp [send_ack, hf, hne]
  · intro heq
    exact ⟨by simp [send_ack, hf, heq], set_key_no_equals_find _ a _⟩
  · intro pr cid2 hkey hne
    subst hkey
    have hne' : d.contract_id ≠ cid2 := fun h => hne h.symm
    rw [update_step_found_ne server_id st cid2 pr d hf hne']
    constructor
    · have hf' : alist_find (get_contract_key server_id pr)
          (alist_set (get_contract_key server_id pr)
            { d with contract_id := cid2 } st.executions) =
          some { d with contract_id := cid2 } := alist_find_set_self hf
      simp only [send_ack, hf']
      simp [hne]
    · exact alist_find_erase_self

/-- Witness for C3 at a concrete input: key for region lower 0, upper
5 is live under contract id 99; an ack for contract id 98 is a no-op,
and after the pass swaps the key to contract id 100, the ack map holds
no entry for (1, 99). -/
theorem route_ack_semantics_witness :
    send_ack 1
        (executor_state_t.mk
          [(⟨⟨0, 5⟩, role_t.primary, 0, 0⟩, ⟨99, 7⟩)] [((1, 99), 5)] 7)
        ⟨⟨0, 5⟩, role_t.primary, 0, 0⟩ 98 42 =
      some (executor_state_t.mk
        [(⟨⟨0, 5⟩, role_t.primary, 0, 0⟩, ⟨99, 7⟩)] [((1, 99), 5)] 7)
    ∧ alist_find ((1 : server_id_t), (99 : contract_id_t))
        (update_step 1
          (executor_state_t.mk
            [(⟨⟨0, 5⟩, role_t.primary, 0, 0⟩, ⟨99, 7⟩)] [((1, 99), 5)] 7)
          (100, ⟨0, 5⟩, ⟨[1], some 1, 0⟩)).1.ack_map = none :=
  ⟨(route_ack_semantics 1
      (executor_state_t.mk
        [(⟨⟨0, 5⟩, role_t.primary, 0, 0⟩, ⟨99, 7⟩)] [((1, 99), 5)] 7)
      ⟨⟨0, 5⟩, role_t.primary, 0, 0⟩ 98 42 ⟨99, 7⟩ (by decide)).1 (by decide),
   ((route_ack_semantics 1
      (executor_state_t.mk
        [(⟨⟨0, 5⟩, role_t.primary, 0, 0⟩, ⟨99, 7⟩)] [((1, 99), 5)] 7)
      ⟨⟨0, 5⟩, role_t.primary, 0, 0⟩ 100 42 ⟨99, 7⟩ (by decide)).2.2
      (⟨0, 5⟩, ⟨[1], some 1, 0⟩) 100 (by decide) (by decide)).2⟩

/-- C10. send_ack performs an unchecked lookup (std::map::at): when
the key has no live entry the call is a failing partial lookup, not a
silent no-op; when the key is live the call always succeeds; and
during the teardown of other keys a live key keeps its entry, so
send_ack for it still succeeds at the moment its acks could arrive. -/
theorem send_ack_partial_lookup (server_id : server_id_t)
    (st : executor_state_t) (key : execution_key_t) (cid : contract_id_t)
    (a : contract_ack_t) :
    (alist_find key st.executions = none → send_ack server_id st key cid a = none)
    ∧ ((alist_find key st.executions).isSome →
        (send_ack server_id st key cid a).isSome)
    ∧ (∀ dels : List execution_key_t, key ∉ dels →
        (alist_find key st.executions).isSome →
        (send_ack server_id (teardown_loop server_id st dels).1 key cid a).isSome) := by
  refine ⟨?_, ?_, ?_⟩
  · intro h
    simp [send_ack, h]
  · intro h
    obtain ⟨d, hd⟩ := Option.isSome_iff_exists.mp h
    simp only [send_ack, hd]
    split <;> simp
  · intro dels hnot h
    obtain ⟨d, hd⟩ := Option.isSome_iff_exists.mp h
    have heq := teardown_loop_find_other server_id dels st key hnot
    rw [hd] at heq
    simp only [send_ack, heq]
    split <;> simp

/-- Witness for C10 at concrete inputs: an absent key makes send_ack
fail; a live key succeeds even after the teardown of a different
key. -/
theorem send_ack_partial_lookup_witness :
    send_ack 1
        (executor_state_t.mk
          [(⟨⟨0, 5⟩, role_t.primary, 0, 0⟩, ⟨99, 7⟩),
           (⟨⟨10, 15⟩, role_t.primary, 0, 0⟩, ⟨98, 8⟩)] [] 8)
        ⟨⟨20, 25⟩, role_t.primary, 0, 0⟩ 99 42 = none
    ∧ (send_ack 1
        (teardown_loop 1
          (executor_state_t.mk
            [(⟨⟨0, 5⟩, role_t.primary, 0, 0⟩, ⟨99, 7⟩),
             (⟨⟨10, 15⟩, role_t.primary, 0, 0⟩, ⟨98, 8⟩)] [] 8)
          [⟨⟨0, 5⟩, role_t.primary, 0, 0⟩]).1
        ⟨⟨10, 15⟩, role_t.primary, 0, 0⟩ 98 42).isSome :=
  ⟨(send_ack_partial_lookup 1
      (executor_state_t.mk
        [(⟨⟨0, 5⟩, role_t.primary, 0, 0⟩, ⟨99, 7⟩),
         (⟨⟨10, 15⟩, role_t.primary, 0, 0⟩, ⟨98, 8⟩)] [] 8)
      ⟨⟨20, 25⟩, role_t.primary, 0, 0⟩ 99 42).1 (by decide),
   (send_ack_partial_lookup 1
      (executor_state_t.mk
        [(⟨⟨0, 5⟩, role_t.primary, 0, 0⟩, ⟨99, 7⟩),
         (⟨⟨10, 15⟩, role_t.primary, 0, 0⟩, ⟨98, 8⟩)] [] 8)
      ⟨⟨10, 15⟩, role_t.primary, 0, 0⟩ 98 42).2.2
      [⟨⟨0, 5⟩, role_t.primary, 0, 0⟩] (by decide) (by decide)⟩

section Monotonicity

/-- A live entry survives one diff step: its key stays live and its
worker (exec_id) is untouched (only the contract id may be swapped). -/
theorem update_step_find_mono (server_id : server_id_t) (st : executor_state_t)
    (e : contract_entry_t) (k : execution_key_t) (d : execution_data_t)
    (hf : alist_find k st.executions = some d) :
    ∃ d', alist_find k (update_step server_id st e).1.executions = some d'
      ∧ d'.exec_id = d.exec_id := by
  obtain ⟨cid, pr⟩ := e
  cases hf0 : alist_find (get_contract_key server_id pr) st.executions with
  | some d0 =>
    by_cases heq : d0.contract_id = cid
    · rw [update_step_found_eq server_id st cid pr d0 hf0 heq]
      exact ⟨d, hf, rfl⟩
    · rw [update_step_found_ne server_id st cid pr d0 hf0 heq]
      by_cases hk : get_contract_key server_id pr = k
      · subst hk
        have hd0 : d0 = d := by
          rw [hf0] at hf
          exact Option.some.inj hf
        subst hd0
        exact ⟨{ d0 with contract_id := cid }, alist_find_set_self hf0, rfl⟩
      · exact ⟨d, by rw [alist_find_set_ne hk]; exact hf, rfl⟩
  | none =>
    by_cases hok : st.executions.all
        (fun old_pair => !region_overlaps old_pair.1.region pr.1) = true
    · rw [update_step_absent_ok server_id st cid pr hf0 hok]
      exact ⟨d, alist_find_append_of_some hf, rfl⟩
    · rw [update_step_absent_blocked server_id st cid pr hf0 hok]
      exact ⟨d, hf, rfl⟩

/-- A live entry survives the whole diff loop with its worker. -/
theorem update_loop_find_mono (server_id : server_id_t) :
    ∀ (contracts : List contract_entry_t) (st : executor_state_t)
      (k : execution_key_t) (d : execution_data_t),
      alist_find k st.executions = some d →
      ∃ d', alist_find k (update_loop server_id st contracts).1.executions = some d'
        ∧ d'.exec_id = d.exec_id := by
  intro contracts
  induction contracts with
  | nil => intro st k d hf; exact ⟨d, hf, rfl⟩
  | cons e rest ih =>
    intro st k d hf
    rw [update_loop_cons_fst]
    obtain ⟨d1, hd1, hid1⟩ := update_step_find_mono server_id st e k d hf
    obtain ⟨d2, hd2, hid2⟩ := ih _ k d1 hd1
    exact ⟨d2, hd2, hid2.trans hid1⟩

/-- The diff pass never removes a live key. -/
theorem live_keys_update_loop_mono (server_id : server_id_t)
    (contracts : List contract_entry_t) (st : executor_state_t)
    (k : execution_key_t) (hk : k ∈ live_keys st) :
    k ∈ live_keys (update_loop server_id st contracts).1 := by
  obtain ⟨d, hd⟩ := Option.isSome_iff_exists.mp (alist_find_isSome_of_mem_keys hk)
  obtain ⟨d', hd', _⟩ := update_loop_find_mono server_id contracts st k d hd
  exact mem_keys_of_alist_find hd'

theorem keys_update_step_nodup (server_id : server_id_t) (st : executor_state_t)
    (e : contract_entry_t) (h : (live_keys st).Nodup) :
    (live_keys (update_step server_id st e).1).Nodup := by
  obtain ⟨cid, pr⟩ := e
  cases hf0 : alist_find (get_contract_key server_id pr) st.executions with
  | some d0 =>
    by_cases heq : d0.contract_id = cid
    · rw [update_step_found_eq server_id st cid pr d0 hf0 heq]
      exact h
    · rw [update_step_found_ne server_id st cid pr d0 hf0 heq]
      simpa [live_keys, alist_set_keys] using h
  | none =>
    by_cases hok : st.executions.all
        (fun old_pair => !region_overlaps old_pair.1.region pr.1) = true
    · rw [update_step_absent_ok server_id st cid pr hf0 hok]
      have hkeys : live_keys { st with
          executions := st.executions ++
            [(get_contract_key server_id pr,
              { contract_id := cid, exec_id := st.perfmon_counter + 1 })],
          perfmon_counter := st.perfmon_counter + 1 } =
          live_keys st ++ [get_contract_key server_id pr] := by
        simp [live_keys]
      rw [hkeys, List.nodup_append]
      refine ⟨h, List.nodup_singleton _, ?_⟩
      intro a ha hb
      have : a = get_contract_key server_id pr := by simpa using hb
      subst this
      have := alist_find_isSome_of_mem_keys (l := st.executions) ha
      rw [hf0] at this
      simp at this
    · rw [update_step_absent_blocked server_id st cid pr hf0 hok]
      exact h

theorem keys_update_loop_nodup (server_id : server_id_t) :
    ∀ (contracts : List contract_entry_t) (st : executor_state_t),
      (live_keys st).Nodup →
      (live_keys (update_loop server_id st contracts).1).Nodup := by
  intro contracts
  induction contracts with
  | nil => intro st h; exact h
  | cons e rest ih =>
    intro st h
    rw [update_loop_cons_fst]
    exact ih _ (keys_update_step_nodup server_id st e h)

theorem alist_erase_keys_sublist {α β : Type} [DecidableEq α] (k : α)
    (l : List (α × β)) :
    List.Sublist ((alist_erase k l).map Prod.fst) (l.map Prod.fst) := by
  induction l with
  | nil => simp [alist_erase]
  | cons p t ih =>
    simp only [alist_erase]
    split
    · exact ih.trans (List.sublist_cons_self _ _)
    · simpa using List.Sublist.cons₂ p.1 ih

theorem keys_teardown_step_nodup (server_id : server_id_t)
    (st : executor_state_t) (k : execution_key_t)
    (h : (live_keys st).Nodup) :
    (live_keys (teardown_step server_id st k).1).Nodup := by
  unfold teardown_step
  cases hf : alist_find k st.executions with
  | some d => exact (alist_erase_keys_sublist k st.executions).nodup h
  | none => exact h

theorem keys_teardown_loop_nodup (server_id : server_id_t) :
    ∀ (dels : List execution_key_t) (st : executor_state_t),
      (live_keys st).Nodup →
      (live_keys (teardown_loop server_id st dels).1).Nodup := by
  intro dels
  induction dels with
  | nil => intro st h; exact h
  | cons k rest ih =>
    intro st h
    rw [teardown_loop_cons_fst]
    exact ih _ (keys_teardown_step_nodup server_id st k h)

theorem keys_pass_nodup (server_id : server_id_t)
    (contracts : List contract_entry_t) (st : executor_state_t)
    (h : (live_keys st).Nodup) :
    (live_keys (pass server_id contracts st)).Nodup := by
  rw [pass_eq]
  refine keys_teardown_loop_nodup server_id _ _ ?_
  rw [update_state_eq]
  exact keys_update_loop_nodup server_id contracts st h

/-- Generic characterization of the filtered key projection used for
the deletion set. -/
theorem mem_map_fst_filter_not_mem {α β : Type} [DecidableEq α]
    {l : List (α × β)} {S : List α} {k : α} :
    (k ∈ (l.filter (fun p => !decide (p.1 ∈ S))).map Prod.fst) ↔
      (k ∈ l.map Prod.fst ∧ k ∉ S) := by
  constructor
  · intro hk
    obtain ⟨p, hp, rfl⟩ := List.mem_map.mp hk
    have hpf := List.mem_filter.mp hp
    exact ⟨List.mem_map.mpr ⟨p, hpf.1, rfl⟩, by simpa using hpf.2⟩
  · rintro ⟨hk, hns⟩
    obtain ⟨p, hp, rfl⟩ := List.mem_map.mp hk
    exact List.mem_map.mpr ⟨p, List.mem_filter.mpr ⟨hp, by simpa using hns⟩, rfl⟩

/-- Shared characterization of the deletion set reported by a diff
pass: exactly the keys live after the loop that no contract wants. -/
theorem mem_dels_iff (server_id : server_id_t) (st : executor_state_t)
    (contracts : List contract_entry_t) (k : execution_key_t) :
    k ∈ (update server_id st contracts).dels ↔
      (k ∈ live_keys (update server_id st contracts).state ∧
       k ∉ dont_delete server_id contracts) :=
  mem_map_fst_filter_not_mem

/-- Over a duplicate-free live table, the reported deletion set is
duplicate-free. -/
theorem dels_nodup (server_id : server_id_t) (st : executor_state_t)
    (contracts : List contract_entry_t) (hwf : (live_keys st).Nodup) :
    (update server_id st contracts).dels.Nodup := by
  have hstnd : (live_keys (update server_id st contracts).state).Nodup := by
    rw [update_state_eq]
    exact keys_update_loop_nodup server_id contracts st hwf
  have hsub : List.Sublist (update server_id st contracts).dels
      (live_keys (update server_id st contracts).state) :=
    (List.filter_sublist _).map Prod.fst
  exact hsub.nodup hstnd

end Monotonicity

/-- C6. Deletion set is the exact complement of the wanted set: a key
is reported for deletion iff it is live after the diff loop and is not
the derived key of any contract of the input mapping; wanted keys are
never reported even when their creation or update was skipped; and the
diff pass deletes nothing (every key live before is live after). -/
theorem deletion_set_exact (server_id : server_id_t) (st : executor_state_t)
    (contracts : List contract_entry_t) :
    (∀ k, k ∈ (update server_id st contracts).dels ↔
      (k ∈ live_keys (update server_id st contracts).state ∧
       k ∉ dont_delete server_id contracts))
    ∧ (∀ k ∈ dont_delete server_id contracts,
        k ∉ (update server_id st contracts).dels)
    ∧ (∀ k ∈ live_keys st, k ∈ live_keys (update server_id st contracts).state) := by
  refine ⟨mem_dels_iff server_id st contracts, ?_, ?_⟩
  · intro k hk hdel
    exact ((mem_dels_iff server_id st contracts k).mp hdel).2 hk
  · intro k hk
    rw [update_state_eq]
    exact live_keys_update_loop_mono server_id contracts st k hk

/-- Witness for C6 at a concrete input: with one stale live key and
one fresh contract, the stale key is reported for deletion and the
wanted key is not. -/
theorem deletion_set_exact_witness :
    (⟨⟨0, 20⟩, role_t.primary, 0, 0⟩ : execution_key_t) ∈
      (update 1
        (executor_state_t.mk
          [(⟨⟨0, 20⟩, role_t.primary, 0, 0⟩, ⟨99, 7⟩)] [((1, 99), 5)] 7)
        [(1, ⟨0, 5⟩, ⟨[1], some 1, 0⟩)]).dels
    ∧ (⟨⟨0, 5⟩, role_t.primary, 0, 0⟩ : execution_key_t) ∉
      (update 1
        (executor_state_t.mk
          [(⟨⟨0, 20⟩, role_t.primary, 0, 0⟩, ⟨99, 7⟩)] [((1, 99), 5)] 7)
        [(1, ⟨0, 5⟩, ⟨[1], some 1, 0⟩)]).dels :=
  ⟨((deletion_set_exact 1
      (executor_state_t.mk
        [(⟨⟨0, 20⟩, role_t.primary, 0, 0⟩, ⟨99, 7⟩)] [((1, 99), 5)] 7)
      [(1, ⟨0, 5⟩, ⟨[1], some 1, 0⟩)]).1 _).mpr ⟨by decide, by decide⟩,
   (deletion_set_exact 1
      (executor_state_t.mk
        [(⟨⟨0, 20⟩, role_t.primary, 0, 0⟩, ⟨99, 7⟩)] [((1, 99), 5)] 7)
      [(1, ⟨0, 5⟩, ⟨[1], some 1, 0⟩)]).2.1 _ (by decide)⟩

section TeardownTrace

/-- For every key of a duplicate-free deletion list whose entry is
present, the teardown trace contains, in this order, its blocking
shutdown, then the deletion of the ack-map entry for its last recorded
contract id, then its erasure from the live table. -/
theorem teardown_trace_triple (server_id : server_id_t) :
    ∀ (dels : List execution_key_t) (st : executor_state_t),
      dels.Nodup → (∀ k ∈ dels, (alist_find k st.executions).isSome) →
      ∀ k ∈ dels, ∃ d, alist_find k st.executions = some d ∧
        List.Sublist
          [event_t.shutdown k, event_t.ack_delete (server_id, d.contract_id),
           event_t.erase_entry k]
          (teardown_loop server_id st dels).2 := by
  intro dels
  induction dels with
  | nil => intro st _ _ k hk; simp at hk
  | cons k0 rest ih =>
    intro st hnd hpres k hk
    rw [teardown_loop_cons_snd]
    rcases List.mem_cons.mp hk with rfl | hkr
    · obtain ⟨d, hd⟩ := Option.isSome_iff_exists.mp
        (hpres k (List.mem_cons_self _ _))
      refine ⟨d, hd, ?_⟩
      have hstep : (teardown_step server_id st k).2 =
          [event_t.shutdown k, event_t.ack_delete (server_id, d.contract_id),
           event_t.erase_entry k] := by
        simp [teardown_step, hd]
      rw [hstep]
      exact List.sublist_append_left _ _
    · have hne : k0 ≠ k := by
        rintro rfl
        exact (List.nodup_cons.mp hnd).1 hkr
      have hpres' : ∀ k' ∈ rest,
          (alist_find k' (teardown_step server_id st k0).1.executions).isSome := by
        intro k' hk'
        have hne' : k0 ≠ k' := by
          rintro rfl
          exact (List.nodup_cons.mp hnd).1 hk'
        rw [teardown_step_find_other server_id st k0 k' hne']
        exact hpres k' (List.mem_cons_of_mem _ hk')
      obtain ⟨d, hd, hsub⟩ := ih (teardown_step server_id st k0).1
        (List.nodup_cons.mp hnd).2 hpres' k hkr
      refine ⟨d, ?_, hsub.trans (List.sublist_append_right _ _)⟩
      rw [teardown_step_find_other server_id st k0 k hne] at hd
      exact hd

/-- The event trace of a pass with a nonempty deletion set: diff
events, then the teardown events, then the pump notification. -/
theorem update_blocking_events (server_id : server_id_t)
    (st : executor_state_t) (contracts : List contract_entry_t)
    (h : (update server_id st contracts).dels ≠ []) :
    (update_blocking server_id st contracts).2 =
      (update server_id st contracts).events ++
        (teardown_loop server_id (update server_id st contracts).state
          (update server_id st contracts).dels).2 ++ [event_t.notify] := by
  simp [update_blocking, h]

end TeardownTrace

/-- C2. Teardown ordering: for every key reported for deletion by a
pass over a duplicate-free live table, the event trace of the pass
contains, at strictly increasing positions, the completed blocking
shutdown of that key's execution, then the removal of the ack-map
entry for (server_id, its last recorded contract id), then the erasure
of the key from the live table; and whenever at least one key was
deleted, the trace ends with a pump notification scheduling another
pass. -/
theorem teardown_ordering (server_id : server_id_t) (st : executor_state_t)
    (contracts : List contract_entry_t) (hwf : (live_keys st).Nodup) :
    (∀ k ∈ (update server_id st contracts).dels,
      ∃ d, alist_find k (update server_id st contracts).state.executions = some d ∧
        List.Sublist
          [event_t.shutdown k, event_t.ack_delete (server_id, d.contract_id),
           event_t.erase_entry k]
          (update_blocking server_id st contracts).2)
    ∧ ((update server_id st contracts).dels ≠ [] →
        (update_blocking server_id st contracts).2.getLast? =
          some event_t.notify) := by
  have hdnd : (update server_id st contracts).dels.Nodup :=
    dels_nodup server_id st contracts hwf
  have hpres : ∀ k ∈ (update server_id st contracts).dels,
      (alist_find k (update server_id st contracts).state.executions).isSome := by
    intro k hk
    exact alist_find_isSome_of_mem_keys
      ((mem_dels_iff server_id st contracts k).mp hk).1
  constructor
  · intro k hk
    by_cases hdel : (update server_id st contracts).dels = []
    · rw [hdel] at hk
      simp at hk
    · obtain ⟨d, hd, hsub⟩ := teardown_trace_triple server_id
        (update server_id st contracts).dels
        (update server_id st contracts).state hdnd hpres k hk
      refine ⟨d, hd, ?_⟩
      rw [update_blocking_events server_id st contracts hdel]
      exact (hsub.trans (List.sublist_append_right _ _)).trans
        (List.sublist_append_left _ _)
  · intro hdel
    rw [update_blocking_events server_id st contracts hdel]
    exact List.getLast?_concat _

/-- Witness for C2 at a concrete input: a stale live key for region
lower 0, upper 20 is deleted by a pass over a single disjoint
contract; its shutdown, ack-entry removal and erasure appear in order
and the trace ends in a notification. -/
theorem teardown_ordering_witness :
    ((⟨⟨0, 20⟩, role_t.primary, 0, 0⟩ : execution_key_t) ∈
      (update 1
        (executor_state_t.mk
          [(⟨⟨0, 20⟩, role_t.primary, 0, 0⟩, ⟨99, 7⟩)] [((1, 99), 5)] 7)
        [(1, ⟨30, 40⟩, ⟨[1], some 1, 0⟩)]).dels)
    ∧ (∃ d, alist_find (⟨⟨0, 20⟩, role_t.primary, 0, 0⟩ : execution_key_t)
        (update 1
          (executor_state_t.mk
            [(⟨⟨0, 20⟩, role_t.primary, 0, 0⟩, ⟨99, 7⟩)] [((1, 99), 5)] 7)
          [(1, ⟨30, 40⟩, ⟨[1], some 1, 0⟩)]).state.executions = some d ∧
        List.Sublist
          [event_t.shutdown ⟨⟨0, 20⟩, role_t.primary, 0, 0⟩,
           event_t.ack_delete (1, d.contract_id),
           event_t.erase_entry ⟨⟨0, 20⟩, role_t.primary, 0, 0⟩]
          (update_blocking 1
            (executor_state_t.mk
              [(⟨⟨0, 20⟩, role_t.primary, 0, 0⟩, ⟨99, 7⟩)] [((1, 99), 5)] 7)
            [(1, ⟨30, 40⟩, ⟨[1], some 1, 0⟩)]).2)
    ∧ (update_blocking 1
        (executor_state_t.mk
          [(⟨⟨0, 20⟩, role_t.primary, 0, 0⟩, ⟨99, 7⟩)] [((1, 99), 5)] 7)
        [(1, ⟨30, 40⟩, ⟨[1], some 1, 0⟩)]).2.getLast? =
      some event_t.notify :=
  ⟨by decide,
   (teardown_ordering 1
      (executor_state_t.mk
        [(⟨⟨0, 20⟩, role_t.primary, 0, 0⟩, ⟨99, 7⟩)] [((1, 99), 5)] 7)
      [(1, ⟨30, 40⟩, ⟨[1], some 1, 0⟩)] (by decide)).1
      ⟨⟨0, 20⟩, role_t.primary, 0, 0⟩ (by decide),
   (teardown_ordering 1
      (executor_state_t.mk
        [(⟨⟨0, 20⟩, role_t.primary, 0, 0⟩, ⟨99, 7⟩)] [((1, 99), 5)] 7)
      [(1, ⟨30, 40⟩, ⟨[1], some 1, 0⟩)] (by decide)).2 (by decide)⟩

section SamePass

/-- Mutual exclusion of two overlapping keys across one diff step: a
step never makes two distinct keys with overlapping regions both
live. -/
theorem not_both_live_update_step (server_id : server_id_t)
    (st : executor_state_t) (e : contract_entry_t) (k1 k2 : execution_key_t)
    (hover : region_overlaps k1.region k2.region = true) (hne : k1 ≠ k2)
    (h : ¬(k1 ∈ live_keys st ∧ k2 ∈ live_keys st)) :
    ¬(k1 ∈ live_keys (update_step server_id st e).1 ∧
      k2 ∈ live_keys (update_step server_id st e).1) := by
  obtain ⟨cid, pr⟩ := e
  cases hf0 : alist_find (get_contract_key server_id pr) st.executions with
  | some d0 =>
    by_cases heq : d0.contract_id = cid
    · rw [update_step_found_eq server_id st cid pr d0 hf0 heq]
      exact h
    · rw [update_step_found_ne server_id st cid pr d0 hf0 heq]
      simpa [live_keys, alist_set_keys] using h
  | none =>
    by_cases hok : st.executions.all
        (fun old_pair => !region_overlaps old_pair.1.region pr.1) = true
    · rw [update_step_absent_ok server_id st cid pr hf0 hok]
      have hkeys : live_keys { st with
          executions := st.executions ++
            [(get_contract_key server_id pr,
              { contract_id := cid, exec_id := st.perfmon_counter + 1 })],
          perfmon_counter := st.perfmon_counter + 1 } =
          live_keys st ++ [get_contract_key server_id pr] := by
        simp [live_keys]
      rw [hkeys]
      rintro ⟨h1, h2⟩
      rcases List.mem_append.mp h1 with h1 | h1 <;>
        rcases List.mem_append.mp h2 with h2 | h2
      · exact h ⟨h1, h2⟩
      · have hk2 : k2 = get_contract_key server_id pr := by simpa using h2
        have := guard_overlaps_false hok k1 h1
        rw [hk2, get_contract_key_region] at hover
        exact Bool.false_ne_true (this ▸ hover)
      · have hk1 : k1 = get_contract_key server_id pr := by simpa using h1
        have := guard_overlaps_false hok k2 h2
        rw [region_overlaps_symm, hk1, get_contract_key_region] at hover
        exact Bool.false_ne_true (this ▸ hover)
      · have hk1 : k1 = get_contract_key server_id pr := by simpa using h1
        have hk2 : k2 = get_contract_key server_id pr := by simpa using h2
        exact hne (hk1.trans hk2.symm)
    · rw [update_step_absent_blocked server_id st cid pr hf0 hok]
      exact h

/-- Mutual exclusion of two overlapping keys across the whole diff
loop. -/
theorem not_both_live_update_loop (server_id : server_id_t) :
    ∀ (contracts : List contract_entry_t) (st : executor_state_t)
      (k1 k2 : execution_key_t),
      region_overlaps k1.region k2.region = true → k1 ≠ k2 →
      ¬(k1 ∈ live_keys st ∧ k2 ∈ live_keys st) →
      ¬(k1 ∈ live_keys (update_loop server_id st contracts).1 ∧
        k2 ∈ live_keys (update_loop server_id st contracts).1) := by
  intro contracts
  induction contracts with
  | nil => intro st k1 k2 _ _ h; exact h
  | cons e rest ih =>
    intro st k1 k2 hover hne h
    rw [update_loop_cons_fst]
    exact ih _ k1 k2 hover hne
      (not_both_live_update_step server_id st e k1 k2 hover hne h)

end SamePass

/-- C8 counterexample: the claim as stated says the winner among two
overlapping contracts neither of which is live is the first one in
iteration order. With three contracts over regions (0,5), (4,12),
(10,15) and an empty table, the pair ((4,12),(10,15)) overlaps and
neither key is live, yet the pass creates the second of the pair (its
first was itself blocked by the creation for (0,5)). -/
theorem same_pass_tie_break_counterexample :
    region_overlaps ⟨4, 12⟩ ⟨10, 15⟩ = true
    ∧ get_contract_key 1 (⟨4, 12⟩, ⟨[1], some 1, 0⟩) ∉
        live_keys (executor_state_t.mk [] [] 0)
    ∧ get_contract_key 1 (⟨10, 15⟩, ⟨[1], some 1, 0⟩) ∉
        live_keys (executor_state_t.mk [] [] 0)
    ∧ get_contract_key 1 (⟨4, 12⟩, ⟨[1], some 1, 0⟩) ∉
        live_keys (update 1 (executor_state_t.mk [] [] 0)
          [(1, ⟨0, 5⟩, ⟨[1], some 1, 0⟩), (2, ⟨4, 12⟩, ⟨[1], some 1, 0⟩),
           (3, ⟨10, 15⟩, ⟨[1], some 1, 0⟩)]).state
    ∧ get_contract_key 1 (⟨10, 15⟩, ⟨[1], some 1, 0⟩) ∈
        live_keys (update 1 (executor_state_t.mk [] [] 0)
          [(1, ⟨0, 5⟩, ⟨[1], some 1, 0⟩), (2, ⟨4, 12⟩, ⟨[1], some 1, 0⟩),
           (3, ⟨10, 15⟩, ⟨[1], some 1, 0⟩)]).state := by
  decide

/-- C8 amended: when the input mapping holds two contracts with
distinct derived keys whose regions overlap and neither key is live at
the start of the pass, at most one of the two executions is created in
that pass (so when the first observed one is created, the second is
deferred); which of the two wins can however depend on other live or
same-pass-created keys blocking the first. -/
theorem same_pass_tie_break_amended (server_id : server_id_t)
    (st : executor_state_t) (contracts : List contract_entry_t)
    (cid1 cid2 : contract_id_t) (pr1 pr2 : region_t × contract_t)
    (_h1 : (cid1, pr1) ∈ contracts) (_h2 : (cid2, pr2) ∈ contracts)
    (hover : region_overlaps pr1.1 pr2.1 = true)
    (hkne : get_contract_key server_id pr1 ≠ get_contract_key server_id pr2)
    (ha1 : get_contract_key server_id pr1 ∉ live_keys st)
    (_ha2 : get_contract_key server_id pr2 ∉ live_keys st) :
    ¬(get_contract_key server_id pr1 ∈
        live_keys (update server_id st contracts).state ∧
      get_contract_key server_id pr2 ∈
        live_keys (update server_id st contracts).state) := by
  rw [update_state_eq]
  refine not_both_live_update_loop server_id contracts st _ _ ?_ hkne ?_
  · rw [get_contract_key_region, get_contract_key_region]
    exact hover
  · rintro ⟨hc1, _⟩
    exact ha1 hc1

/-- Witness for the amended C8 at a concrete input: two overlapping
contracts on an empty table never both get created in one pass. -/
theorem same_pass_tie_break_amended_witness :
    ¬(get_contract_key 1 (⟨0, 5⟩, ⟨[1], some 1, 0⟩) ∈
        live_keys (update 1 (executor_state_t.mk [] [] 0)
          [(1, ⟨0, 5⟩, ⟨[1], some 1, 0⟩), (2, ⟨4, 12⟩, ⟨[1], some 1, 0⟩)]).state ∧
      get_contract_key 1 (⟨4, 12⟩, ⟨[1], some 1, 0⟩) ∈
        live_keys (update 1 (executor_state_t.mk [] [] 0)
          [(1, ⟨0, 5⟩, ⟨[1], some 1, 0⟩), (2, ⟨4, 12⟩, ⟨[1], some 1, 0⟩)]).state) :=
  same_pass_tie_break_amended 1 (executor_state_t.mk [] [] 0)
    [(1, ⟨0, 5⟩, ⟨[1], some 1, 0⟩), (2, ⟨4, 12⟩, ⟨[1], some 1, 0⟩)]
    1 2 (⟨0, 5⟩, ⟨[1], some 1, 0⟩) (⟨4, 12⟩, ⟨[1], some 1, 0⟩)
    (by decide) (by decide) (by decide) (by decide) (by decide) (by decide)

/-- C9 counterexample: the claim as stated says the overlap guard
compares a candidate only against keys live before the pass began, so
two overlapping contracts could both be created in one pass. With an
empty table before the pass (so no pre-pass key blocks anything) and
two overlapping contracts, only the first is created: the guard did
compare against the same-pass creation. -/
theorem overlap_guard_counterexample :
    live_keys (executor_state_t.mk [] [] 0) = []
    ∧ region_overlaps ⟨0, 10⟩ ⟨6, 20⟩ = true
    ∧ get_contract_key 2 (⟨0, 10⟩, ⟨[2], some 2, 0⟩) ∈
        live_keys (update 2 (executor_state_t.mk [] [] 0)
          [(4, ⟨0, 10⟩, ⟨[2], some 2, 0⟩), (5, ⟨6, 20⟩, ⟨[2], some 2, 0⟩)]).state
    ∧ get_contract_key 2 (⟨6, 20⟩, ⟨[2], some 2, 0⟩) ∉
        live_keys (update 2 (executor_state_t.mk [] [] 0)
          [(4, ⟨0, 10⟩, ⟨[2], some 2, 0⟩), (5, ⟨6, 20⟩, ⟨[2], some 2, 0⟩)]).state := by
  decide

/-- C9 amended: the overlap guard compares a candidate region against
every execution present in the table at the instant of the check,
including executions created earlier in the same pass: a key created
during the pass (not live at its start) blocks the creation of a later
overlapping candidate in the same pass. -/
theorem overlap_guard_sees_same_pass_creations (server_id : server_id_t)
    (st : executor_state_t) (contracts1 : List contract_entry_t)
    (e : contract_entry_t) (k1 : execution_key_t)
    (_hnew : k1 ∉ live_keys st)
    (hlive : k1 ∈ live_keys (update_loop server_id st contracts1).1)
    (habs : alist_find (get_contract_key server_id e.2)
      (update_loop server_id st contracts1).1.executions = none)
    (hover : region_overlaps k1.region e.2.1 = true) :
    update_step server_id (update_loop server_id st contracts1).1 e =
      ((update_loop server_id st contracts1).1, []) := by
  obtain ⟨cid, pr⟩ := e
  refine update_step_absent_blocked server_id _ cid pr habs ?_
  intro hall
  have := guard_overlaps_false hall k1 hlive
  rw [this] at hover
  exact Bool.false_ne_true hover

/-- Witness for the amended C9 at a concrete input: the key created
for region (0,10) earlier in the pass (the table was empty before)
makes the step for the overlapping region (6,20) refuse creation. -/
theorem overlap_guard_sees_same_pass_creations_witness :
    update_step 2
        (update_loop 2 (executor_state_t.mk [] [] 0)
          [(4, ⟨0, 10⟩, ⟨[2], some 2, 0⟩)]).1
        (5, ⟨6, 20⟩, ⟨[2], some 2, 0⟩) =
      ((update_loop 2 (executor_state_t.mk [] [] 0)
          [(4, ⟨0, 10⟩, ⟨[2], some 2, 0⟩)]).1, []) :=
  overlap_guard_sees_same_pass_creations 2 (executor_state_t.mk [] [] 0)
    [(4, ⟨0, 10⟩, ⟨[2], some 2, 0⟩)] (5, ⟨6, 20⟩, ⟨[2], some 2, 0⟩)
    ⟨⟨0, 10⟩, role_t.primary, 0, 0⟩
    (by decide) (by decide) (by decide) (by decide)

section Convergence

theorem update_loop_append (server_id : server_id_t) :
    ∀ (L1 L2 : List contract_entry_t) (st : executor_state_t),
      (update_loop server_id st (L1 ++ L2)).1 =
        (update_loop server_id (update_loop server_id st L1).1 L2).1 := by
  intro L1
  induction L1 with
  | nil => intro L2 st; rfl
  | cons e rest ih =>
    intro L2 st
    rw [List.cons_append, update_loop_cons_fst, update_loop_cons_fst]
    exact ih L2 _

theorem alist_find_append_other {α β : Type} [DecidableEq α]
    {k k' : α} {v : β} {l : List (α × β)} (h : k' ≠ k) :
    alist_find k (l ++ [(k', v)]) = alist_find k l := by
  cases hf : alist_find k l with
  | some w => exact alist_find_append_of_some hf
  | none =>
    rw [alist_find_append_of_none hf]
    simp [alist_find, h]

/-- A step for a contract whose derived key is not k leaves the entry
at k untouched. -/
theorem update_step_find_other (server_id : server_id_t)
    (st : executor_state_t) (e : contract_entry_t) (k : execution_key_t)
    (h : get_contract_key server_id e.2 ≠ k) :
    alist_find k (update_step server_id st e).1.executions =
      alist_find k st.executions := by
  obtain ⟨cid, pr⟩ := e
  cases hf0 : alist_find (get_contract_key server_id pr) st.executions with
  | some d0 =>
    by_cases heq : d0.contract_id = cid
    · rw [update_step_found_eq server_id st cid pr d0 hf0 heq]
    · rw [update_step_found_ne server_id st cid pr d0 hf0 heq]
      exact alist_find_set_ne h
  | none =>
    by_cases hok : st.executions.all
        (fun old_pair => !region_overlaps old_pair.1.region pr.1) = true
    · rw [update_step_absent_ok server_id st cid pr hf0 hok]
      exact alist_find_append_other h
    · rw [update_step_absent_blocked server_id st cid pr hf0 hok]

theorem update_loop_find_other (server_id : server_id_t) :
    ∀ (contracts : List contract_entry_t) (st : executor_state_t)
      (k : execution_key_t),
      (∀ e ∈ contracts, get_contract_key server_id e.2 ≠ k) →
      alist_find k (update_loop server_id st contracts).1.executions =
        alist_find k st.executions := by
  intro contracts
  induction contracts with
  | nil => intro st k _; rfl
  | cons e rest ih =>
    intro st k h
    rw [update_loop_cons_fst,
      ih _ k (fun e' he' => h e' (List.mem_cons_of_mem e he'))]
    exact update_step_find_other server_id st e k (h e (List.mem_cons_self e rest))

/-- Keys live after a step were live before or are the step's derived
key. -/
theorem update_step_keys_subset (server_id : server_id_t)
    (st : executor_state_t) (e : contract_entry_t) (k : execution_key_t)
    (hk : k ∈ live_keys (update_step server_id st e).1) :
    k ∈ live_keys st ∨ k = get_contract_key server_id e.2 := by
  obtain ⟨cid, pr⟩ := e
  cases hf0 : alist_find (get_contract_key server_id pr) st.executions with
  | some d0 =>
    by_cases heq : d0.contract_id = cid
    · rw [update_step_found_eq server_id st cid pr d0 hf0 heq] at hk
      exact Or.inl hk
    · rw [update_step_found_ne server_id st cid pr d0 hf0 heq] at hk
      left
      simpa [live_keys, alist_set_keys] using hk
  | none =>
    by_cases hok : st.executions.all
        (fun old_pair => !region_overlaps old_pair.1.region pr.1) = true
    · rw [update_step_absent_ok server_id st cid pr hf0 hok] at hk
      have : k ∈ live_keys st ++ [get_contract_key server_id pr] := by
        simpa [live_keys] using hk
      rcases List.mem_append.mp this with h | h
      · exact Or.inl h
      · exact Or.inr (by simpa using h)
    · rw [update_step_absent_blocked server_id st cid pr hf0 hok] at hk
      exact Or.inl hk

/-- Keys live after the diff loop were live before or are wanted. -/
theorem update_loop_keys_subset (server_id : server_id_t) :
    ∀ (contracts : List contract_entry_t) (st : executor_state_t)
      (k : execution_key_t),
      k ∈ live_keys (update_loop server_id st contracts).1 →
      k ∈ live_keys st ∨ k ∈ dont_delete server_id contracts := by
  intro contracts
  induction contracts with
  | nil => intro st k hk; exact Or.inl hk
  | cons e rest ih =>
    intro st k hk
    rw [update_loop_cons_fst] at hk
    rcases ih _ k hk with h | h
    · rcases update_step_keys_subset server_id st e k h with h' | h'
      · exact Or.inl h'
      · exact Or.inr (h' ▸ List.mem_map.mpr ⟨e, List.mem_cons_self e rest, rfl⟩)
    · refine Or.inr ?_
      obtain ⟨e', he', rfl⟩ := List.mem_map.mp h
      exact List.mem_map.mpr ⟨e', List.mem_cons_of_mem e he', rfl⟩

/-- In a contract list with duplicate-free derived keys, the entries
after a given one never share its derived key. -/
theorem dont_delete_split_nodup (server_id : server_id_t)
    (L1 L2 : List contract_entry_t) (cid : contract_id_t)
    (pr : region_t × contract_t)
    (hnd : (dont_delete server_id (L1 ++ (cid, pr) :: L2)).Nodup) :
    ∀ e ∈ L2, get_contract_key server_id e.2 ≠ get_contract_key server_id pr := by
  have hsplit : dont_delete server_id (L1 ++ (cid, pr) :: L2) =
      dont_delete server_id L1 ++
        (get_contract_key server_id pr :: dont_delete server_id L2) := by
    simp [dont_delete]
  rw [hsplit] at hnd
  have hnd2 := hnd.of_append_right
  have hnotin : get_contract_key server_id pr ∉ dont_delete server_id L2 :=
    (List.nodup_cons.mp hnd2).1
  intro e he heq
  exact hnotin (heq ▸ List.mem_map.mpr ⟨e, he, rfl⟩)

/-- After the diff loop, the entry of a wanted key (unique among the
derived keys) is either absent or carries that contract's id. -/
theorem update_loop_wanted_cid (server_id : server_id_t)
    (contracts : List contract_entry_t) (st : executor_state_t)
    (cid : contract_id_t) (pr : region_t × contract_t)
    (hmem : (cid, pr) ∈ contracts)
    (hnd : (dont_delete server_id contracts).Nodup) :
    alist_find (get_contract_key server_id pr)
        (update_loop server_id st contracts).1.executions = none
    ∨ ∃ d, alist_find (get_contract_key server_id pr)
        (update_loop server_id st contracts).1.executions = some d
        ∧ d.contract_id = cid := by
  obtain ⟨L1, L2, hM⟩ := List.append_of_mem hmem
  subst hM
  have hkL2 := dont_delete_split_nodup server_id L1 L2 cid pr hnd
  rw [update_loop_append, update_loop_cons_fst,
    update_loop_find_other server_id L2 _ _ hkL2]
  cases hf : alist_find (get_contract_key server_id pr)
      (update_loop server_id st L1).1.executions with
  | some d0 =>
    by_cases heq : d0.contract_id = cid
    · rw [update_step_found_eq server_id _ cid pr d0 hf heq]
      exact Or.inr ⟨d0, hf, heq⟩
    · rw [update_step_found_ne server_id _ cid pr d0 hf heq]
      exact Or.inr ⟨{ d0 with contract_id := cid }, alist_find_set_self hf, rfl⟩
  | none =>
    by_cases hok : (update_loop server_id st L1).1.executions.all
        (fun old_pair => !region_overlaps old_pair.1.region pr.1) = true
    · rw [update_step_absent_ok server_id _ cid pr hf hok]
      refine Or.inr ⟨⟨cid, (update_loop server_id st L1).1.perfmon_counter + 1⟩, ?_, rfl⟩
      show alist_find (get_contract_key server_id pr)
        ((update_loop server_id st L1).1.executions ++
          [(get_contract_key server_id pr,
            ⟨cid, (update_loop server_id st L1).1.perfmon_counter + 1⟩)]) = _
      rw [alist_find_append_of_none hf]
      simp [alist_find]
    · rw [update_step_absent_blocked server_id _ cid pr hf hok]
      exact Or.inl hf

/-- After the diff loop, a wanted key (unique among the derived keys)
that is still absent was refused by the overlap guard: some key live
at the end of the loop overlaps its region. -/
theorem update_loop_blocked (server_id : server_id_t)
    (contracts : List contract_entry_t) (st : executor_state_t)
    (cid : contract_id_t) (pr : region_t × contract_t)
    (hmem : (cid, pr) ∈ contracts)
    (hnd : (dont_delete server_id contracts).Nodup)
    (habs : alist_find (get_contract_key server_id pr)
      (update_loop server_id st contracts).1.executions = none) :
    ∃ k' ∈ live_keys (update_loop server_id st contracts).1,
      region_overlaps k'.region pr.1 = true := by
  obtain ⟨L1, L2, hM⟩ := List.append_of_mem hmem
  subst hM
  have hkL2 := dont_delete_split_nodup server_id L1 L2 cid pr hnd
  rw [update_loop_append, update_loop_cons_fst] at habs ⊢
  rw [update_loop_find_other server_id L2 _ _ hkL2] at habs
  cases hf : alist_find (get_contract_key server_id pr)
      (update_loop server_id st L1).1.executions with
  | some d0 =>
    by_cases heq : d0.contract_id = cid
    · rw [update_step_found_eq server_id _ cid pr d0 hf heq, hf] at habs
      exact absurd habs (by simp)
    · rw [update_step_found_ne server_id _ cid pr d0 hf heq] at habs
      rw [show ({ (update_loop server_id st L1).1 with
          executions := alist_set (get_contract_key server_id pr)
            { d0 with contract_id := cid }
            (update_loop server_id st L1).1.executions,
          ack_map := alist_erase (server_id, d0.contract_id)
            (update_loop server_id st L1).1.ack_map } :
            executor_state_t).executions =
          alist_set (get_contract_key server_id pr)
            { d0 with contract_id := cid }
            (update_loop server_id st L1).1.executions from rfl,
        alist_find_set_self hf] at habs
      exact absurd habs (by simp)
  | none =>
    by_cases hok : (update_loop server_id st L1).1.executions.all
        (fun old_pair => !region_overlaps old_pair.1.region pr.1) = true
    · rw [update_step_absent_ok server_id _ cid pr hf hok] at habs
      rw [show ({ (update_loop server_id st L1).1 with
          executions := (update_loop server_id st L1).1.executions ++
            [(get_contract_key server_id pr,
              { contract_id := cid,
                exec_id := (update_loop server_id st L1).1.perfmon_counter + 1 })],
          perfmon_counter := (update_loop server_id st L1).1.perfmon_counter + 1 } :
            executor_state_t).executions =
          (update_loop server_id st L1).1.executions ++
            [(get_contract_key server_id pr,
              { contract_id := cid,
                exec_id := (update_loop server_id st L1).1.perfmon_counter + 1 })]
          from rfl,
        alist_find_append_of_none hf] at habs
      simp [alist_find] at habs
    · have hex : ∃ p ∈ (update_loop server_id st L1).1.executions,
          region_overlaps p.1.region pr.1 = true := by
        have hnall := mt List.all_eq_true.mpr hok
        push_neg at hnall
        obtain ⟨p, hp, hpb⟩ := hnall
        exact ⟨p, hp, by simpa using hpb⟩
      obtain ⟨p, hp, hpov⟩ := hex
      have hksome := alist_find_isSome_of_mem_keys
        (List.mem_map.mpr ⟨p, hp, rfl⟩)
      obtain ⟨d, hd⟩ := Option.isSome_iff_exists.mp hksome
      obtain ⟨d1, hd1, _⟩ := update_step_find_mono server_id
        (update_loop server_id st L1).1 (cid, pr) p.1 d hd
      obtain ⟨d2, hd2, _⟩ := update_loop_find_mono server_id L2 _ p.1 d1 hd1
      exact ⟨p.1, mem_keys_of_alist_find hd2, hpov⟩

/-- A loop whose every step is the identity is the identity. -/
theorem update_loop_of_steps_id (server_id : server_id_t) :
    ∀ (contracts : List contract_entry_t) (st : executor_state_t),
      (∀ e ∈ contracts, update_step server_id st e = (st, [])) →
      update_loop server_id st contracts = (st, []) := by
  intro contracts
  induction contracts with
  | nil => intro st _; rfl
  | cons e rest ih =>
    intro st h
    have he := h e (List.mem_cons_self e rest)
    have hshape : update_loop server_id st (e :: rest) =
        ((update_loop server_id (update_step server_id st e).1 rest).1,
         (update_step server_id st e).2 ++
           (update_loop server_id (update_step server_id st e).1 rest).2) := rfl
    rw [hshape, he]
    rw [ih st (fun e' he' => h e' (List.mem_cons_of_mem e he'))]
    rfl

theorem teardown_loop_append (server_id : server_id_t) :
    ∀ (d1 d2 : List execution_key_t) (st : executor_state_t),
      (teardown_loop server_id st (d1 ++ d2)).1 =
        (teardown_loop server_id (teardown_loop server_id st d1).1 d2).1 := by
  intro d1
  induction d1 with
  | nil => intro d2 st; rfl
  | cons k rest ih =>
    intro d2 st
    rw [List.cons_append, teardown_loop_cons_fst, teardown_loop_cons_fst]
    exact ih d2 _

/-- Teardown never makes an absent key live. -/
theorem teardown_step_find_none (server_id : server_id_t)
    (st : executor_state_t) (k0 k : execution_key_t)
    (h : alist_find k st.executions = none) :
    alist_find k (teardown_step server_id st k0).1.executions = none := by
  unfold teardown_step
  cases hf : alist_find k0 st.executions with
  | some d =>
    by_cases hk : k0 = k
    · subst hk
      exact alist_find_erase_self
    · rw [alist_find_erase_ne hk]
      exact h
  | none => exact h

theorem teardown_loop_find_none (server_id : server_id_t) :
    ∀ (dels : List execution_key_t) (st : executor_state_t)
      (k : execution_key_t),
      alist_find k st.executions = none →
      alist_find k (teardown_loop server_id st dels).1.executions = none := by
  intro dels
  induction dels with
  | nil => intro st k h; exact h
  | cons k0 rest ih =>
    intro st k h
    rw [teardown_loop_cons_fst]
    exact ih _ k (teardown_step_find_none server_id st k0 k h)

/-- The entry of a wanted key survives the teardown phase of the pass
unchanged. -/
theorem pass_find_wanted (server_id : server_id_t)
    (contracts : List contract_entry_t) (st : executor_state_t)
    (k : execution_key_t) (hk : k ∈ dont_delete server_id contracts) :
    alist_find k (pass server_id contracts st).executions =
      alist_find k (update_loop server_id st contracts).1.executions := by
  rw [pass_eq]
  have hnot : k ∉ (update server_id st contracts).dels := by
    intro hmem
    exact ((mem_dels_iff server_id st contracts k).mp hmem).2 hk
  rw [teardown_loop_find_other server_id _ _ k hnot]
  rfl

/-- An unwanted key is gone after a full pass over a duplicate-free
table. -/
theorem pass_find_unwanted (server_id : server_id_t)
    (contracts : List contract_entry_t) (st : executor_state_t)
    (k : execution_key_t) (hwf : (live_keys st).Nodup)
    (hk : k ∉ dont_delete server_id contracts) :
    alist_find k (pass server_id contracts st).executions = none := by
  rw [pass_eq]
  by_cases hlive : k ∈ live_keys (update server_id st contracts).state
  · have hdel : k ∈ (update server_id st contracts).dels :=
      (mem_dels_iff server_id st contracts k).mpr ⟨hlive, hk⟩
    have hdnd := dels_nodup server_id st contracts hwf
    obtain ⟨l1, l2, hsplit⟩ := List.append_of_mem hdel
    have hknotl1 : k ∉ l1 := by
      intro hkl1
      rw [hsplit] at hdnd
      exact (List.nodup_append.mp hdnd).2.2 hkl1 (List.mem_cons_self _ _)
    rw [hsplit, teardown_loop_append, teardown_loop_cons_fst]
    apply teardown_loop_find_none
    have hpre := teardown_loop_find_other server_id l1
      (update server_id st contracts).state k hknotl1
    unfold teardown_step
    cases hf : alist_find k
        (teardown_loop server_id (update server_id st contracts).state l1).1.executions with
    | some d => exact alist_find_erase_self
    | none => exact hf
  · have hnone : alist_find k (update server_id st contracts).state.executions = none :=
      alist_find_eq_none_of_not_mem_keys hlive
    have hnot : k ∉ (update server_id st contracts).dels := by
      intro hd
      exact hlive ((mem_dels_iff server_id st contracts k).mp hd).1
    rw [teardown_loop_find_other server_id _ _ k hnot]
    exact hnone

/-- Every key live after a pass over a duplicate-free table is wanted
by some contract of the mapping. -/
theorem pass_live_wanted (server_id : server_id_t)
    (contracts : List contract_entry_t) (st : executor_state_t)
    (hwf : (live_keys st).Nodup) :
    ∀ k ∈ live_keys (pass server_id contracts st),
      k ∈ dont_delete server_id contracts := by
  intro k hk
  by_contra hnk
  have h1 := pass_find_unwanted server_id contracts st k hwf hnk
  have h2 := alist_find_isSome_of_mem_keys hk
  rw [h1] at h2
  simp at h2

end Convergence

/-- C7. Convergence to a fixed point: for a contract mapping that has
stopped changing (its derived keys pairwise distinct) and a
duplicate-free live table, two reconciliation passes reach a fixed
point: a third pass returns the state (live table, ack map, counter)
exactly unchanged, the deletion set of a pass at that state is empty,
every further pass is the identity, the live keys all belong to the
derived key set of the mapping, and every derived key not live is
restricted out by the overlap guard (some live key overlaps its
contract's region). -/
theorem convergence_fixed_point (server_id : server_id_t)
    (contracts : List contract_entry_t) (st : executor_state_t)
    (hwf : (live_keys st).Nodup)
    (hkeys : (dont_delete server_id contracts).Nodup) :
    pass server_id contracts
      (pass server_id contracts (pass server_id contracts st)) =
      pass server_id contracts (pass server_id contracts st)
    ∧ (update server_id
        (pass server_id contracts (pass server_id contracts st)) contracts).dels = []
    ∧ (∀ n, (pass server_id contracts)^[n]
        (pass server_id contracts (pass server_id contracts st)) =
        pass server_id contracts (pass server_id contracts st))
    ∧ (∀ k ∈ live_keys (pass server_id contracts (pass server_id contracts st)),
        k ∈ dont_delete server_id contracts)
    ∧ (∀ e ∈ contracts,
        get_contract_key server_id e.2 ∉
          live_keys (pass server_id contracts (pass server_id contracts st)) →
        ∃ k' ∈ live_keys (pass server_id contracts (pass server_id contracts st)),
          region_overlaps k'.region e.2.1 = true) := by
  set s1 := pass server_id contracts st with hs1
  set s2 := pass server_id contracts s1 with hs2
  have hwf1 : (live_keys s1).Nodup := keys_pass_nodup server_id contracts st hwf
  have hS1 : ∀ k ∈ live_keys s1, k ∈ dont_delete server_id contracts :=
    pass_live_wanted server_id contracts st hwf
  have hS2 : ∀ k ∈ live_keys s2, k ∈ dont_delete server_id contracts :=
    pass_live_wanted server_id contracts s1 hwf1
  have hblock : ∀ (cid : contract_id_t) (pr : region_t × contract_t),
      (cid, pr) ∈ contracts →
      alist_find (get_contract_key server_id pr) s2.executions = none →
      ∃ k' ∈ live_keys s2, region_overlaps k'.region pr.1 = true := by
    intro cid pr hmem habs
    have hwant : get_contract_key server_id pr ∈ dont_delete server_id contracts :=
      List.mem_map.mpr ⟨(cid, pr), hmem, rfl⟩
    rw [hs2, pass_find_wanted server_id contracts s1 _ hwant] at habs
    obtain ⟨k', hk', hov⟩ :=
      update_loop_blocked server_id contracts s1 cid pr hmem hkeys habs
    have hk'w : k' ∈ dont_delete server_id contracts := by
      rcases update_loop_keys_subset server_id contracts s1 k' hk' with h | h
      · exact hS1 k' h
      · exact h
    obtain ⟨d, hd⟩ := Option.isSome_iff_exists.mp (alist_find_isSome_of_mem_keys hk')
    have hs2find : alist_find k' s2.executions = some d := by
      rw [hs2, pass_find_wanted server_id contracts s1 k' hk'w]
      exact hd
    exact ⟨k', mem_keys_of_alist_find hs2find, hov⟩
  have hstep : ∀ e ∈ contracts, update_step server_id s2 e = (s2, []) := by
    intro e hmem
    obtain ⟨cid, pr⟩ := e
    have hwant : get_contract_key server_id pr ∈ dont_delete server_id contracts :=
      List.mem_map.mpr ⟨(cid, pr), hmem, rfl⟩
    cases hf2 : alist_find (get_contract_key server_id pr) s2.executions with
    | some d =>
      rcases update_loop_wanted_cid server_id contracts s1 cid pr hmem hkeys with
        hnone | ⟨d', hd', hcid⟩
      · rw [hs2, pass_find_wanted server_id contracts s1 _ hwant, hnone] at hf2
        exact absurd hf2 (by simp)
      · have hd2 : alist_find (get_contract_key server_id pr) s2.executions =
            some d' := by
          rw [hs2, pass_find_wanted server_id contracts s1 _ hwant]
          exact hd'
        have hdd : d = d' := by
          rw [hf2] at hd2
          exact Option.some.inj hd2
        exact update_step_found_eq server_id s2 cid pr d hf2 (by rw [hdd]; exact hcid)
    | none =>
      obtain ⟨k', hk', hov⟩ := hblock cid pr hmem hf2
      refine update_step_absent_blocked server_id s2 cid pr hf2 ?_
      intro hall
      have hfalse := guard_overlaps_false hall k' hk'
      rw [hfalse] at hov
      exact Bool.false_ne_true hov
  have hUid : update_loop server_id s2 contracts = (s2, []) :=
    update_loop_of_steps_id server_id contracts s2 hstep
  have hdels : (update server_id s2 contracts).dels = [] := by
    show ((update_loop server_id s2 contracts).1.executions.filter
      (fun p => !decide (p.1 ∈ dont_delete server_id contracts))).map Prod.fst = []
    rw [hUid]
    have hfil : s2.executions.filter
        (fun p => !decide (p.1 ∈ dont_delete server_id contracts)) = [] := by
      apply List.filter_eq_nil_iff.mpr
      intro p hp
      have hw := hS2 p.1 (List.mem_map.mpr ⟨p, hp, rfl⟩)
      simp [hw]
    show (s2.executions.filter
      (fun p => !decide (p.1 ∈ dont_delete server_id contracts))).map Prod.fst = []
    rw [hfil]
    rfl
  have hpass2 : pass server_id contracts s2 = s2 := by
    rw [pass_eq, hdels, update_state_eq, hUid]
    rfl
  have hiter : ∀ n, (pass server_id contracts)^[n] s2 = s2 := by
    intro n
    induction n with
    | zero => rfl
    | succ m ih => rw [Function.iterate_succ_apply', ih, hpass2]
  refine ⟨hpass2, hdels, hiter, hS2, ?_⟩
  intro e hmem habs
  obtain ⟨cid, pr⟩ := e
  exact hblock cid pr hmem (alist_find_eq_none_of_not_mem_keys habs)

/-- Witness for C7 at a concrete input: starting from a table with one
stale overlapping key and a two-contract mapping, the third pass
equals the second pass and its deletion set is empty. -/
theorem convergence_fixed_point_witness :
    pass 1 [(1, ⟨0, 5⟩, ⟨[1], some 1, 0⟩), (3, ⟨10, 15⟩, ⟨[1], some 1, 0⟩)]
      (pass 1 [(1, ⟨0, 5⟩, ⟨[1], some 1, 0⟩), (3, ⟨10, 15⟩, ⟨[1], some 1, 0⟩)]
        (pass 1 [(1, ⟨0, 5⟩, ⟨[1], some 1, 0⟩), (3, ⟨10, 15⟩, ⟨[1], some 1, 0⟩)]
          (executor_state_t.mk
            [(⟨⟨0, 20⟩, role_t.primary, 0, 0⟩, ⟨99, 7⟩)] [((1, 99), 5)] 7))) =
      pass 1 [(1, ⟨0, 5⟩, ⟨[1], some 1, 0⟩), (3, ⟨10, 15⟩, ⟨[1], some 1, 0⟩)]
        (pass 1 [(1, ⟨0, 5⟩, ⟨[1], some 1, 0⟩), (3, ⟨10, 15⟩, ⟨[1], some 1, 0⟩)]
          (executor_state_t.mk
            [(⟨⟨0, 20⟩, role_t.primary, 0, 0⟩, ⟨99, 7⟩)] [((1, 99), 5)] 7))
    ∧ (update 1
        (pass 1 [(1, ⟨0, 5⟩, ⟨[1], some 1, 0⟩), (3, ⟨10, 15⟩, ⟨[1], some 1, 0⟩)]
          (pass 1 [(1, ⟨0, 5⟩, ⟨[1], some 1, 0⟩), (3, ⟨10, 15⟩, ⟨[1], some 1, 0⟩)]
            (executor_state_t.mk
              [(⟨⟨0, 20⟩, role_t.primary, 0, 0⟩, ⟨99, 7⟩)] [((1, 99), 5)] 7)))
        [(1, ⟨0, 5⟩, ⟨[1], some 1, 0⟩), (3, ⟨10, 15⟩, ⟨[1], some 1, 0⟩)]).dels = [] :=
  ⟨(convergence_fixed_point 1
      [(1, ⟨0, 5⟩, ⟨[1], some 1, 0⟩), (3, ⟨10, 15⟩, ⟨[1], some 1, 0⟩)]
      (executor_state_t.mk
        [(⟨⟨0, 20⟩, role_t.primary, 0, 0⟩, ⟨99, 7⟩)] [((1, 99), 5)] 7)
      (by decide) (by decide)).1,
   (convergence_fixed_point 1
      [(1, ⟨0, 5⟩, ⟨[1], some 1, 0⟩), (3, ⟨10, 15⟩, ⟨[1], some 1, 0⟩)]
      (executor_state_t.mk
        [(⟨⟨0, 20⟩, role_t.primary, 0, 0⟩, ⟨99, 7⟩)] [((1, 99), 5)] 7)
      (by decide) (by decide)).2.1⟩

end ContractExecutor
